import Mathlib

/-!
Verification of the distance-metric core of the gensim tutorial
`docs/src/auto_examples/tutorials/run_distance_metrics.py`.

The tutorial script calls `hellinger` and `jaccard` from `gensim.matutils`;
those two functions are not part of the tutorial file itself, so they are
modelled here from the repository specification (sections 4.1 and 4.2 of the
spec).  `parse_topic_string`, the corpus `texts` and the graph-construction
loop are embedded directly from the tutorial source.
-/

namespace DistanceMetrics

/-- A sparse discrete probability distribution: a finite collection of
(index, probability) pairs.  Mirrors the `SparseDistribution` entity of the
spec and the `[(id, prob), ...]` lists the tutorial feeds to `hellinger`. -/
abbrev SparseDistribution := List (ℕ × ℝ)

/-- Modelled from the spec: probability lookup with implicit zero-fill —
"for each index, fetch probability (default 0 if absent)".  The first pair
carrying the index wins; an absent index has probability 0. -/
def dlookup (p : SparseDistribution) (i : ℕ) : ℝ :=
  match p.find? (fun e => e.1 == i) with
  | some e => e.2
  | none => 0

/-- The index set (support) of a sparse distribution. -/
def indexSet (p : SparseDistribution) : Finset ℕ :=
  (p.map Prod.fst).toFinset

/-- Modelled from the spec: the Hellinger distance of `gensim.matutils.hellinger`
(not under `src/`; only its tutorial callers are).  Spec section 4.1:
"union the index sets of p and q; for each index, fetch probability
(default 0 if absent); compute squared difference of square roots; sum;
multiply by 0.5; take square root". -/
noncomputable def hellinger (p q : SparseDistribution) : ℝ :=
  Real.sqrt (0.5 * ∑ i in indexSet p ∪ indexSet q,
    (Real.sqrt (dlookup p i) - Real.sqrt (dlookup q i)) ^ 2)

/-- A document in one of the two representations accepted by the Jaccard
computation: a raw token list, or a sparse bag-of-words of
(index, count) pairs.  Spec section 9: `DocumentRepresentation =
TokenList(seq<string>) | IndexedBag(seq<(int,int)>)`. -/
inductive DocRep where
  | tokenList (ts : List String)
  | bag (bs : List (ℕ × ℕ))

/-- Modelled from the spec: normalization of either representation to a set
of vocabulary indices, using the vocabulary mapping `tok2id` — "for
bag-of-words input, the set is the set of indices with positive count,
ignoring magnitude; for token-list input, the set is the set of distinct
tokens". -/
def normalizeDoc (tok2id : String → ℕ) : DocRep → Finset ℕ
  | .tokenList ts => (ts.map tok2id).toFinset
  | .bag bs => ((bs.filter (fun e => decide (0 < e.2))).map Prod.fst).toFinset

/-- Modelled from the spec: the Jaccard distance of `gensim.matutils.jaccard`
(not under `src/`; only its tutorial callers are).  Spec section 4.2:
"normalize each input to a set representation ...; if union size is 0 (both
sets empty), define result as 0 ...; else return 1 − intersection/union". -/
def jaccard (tok2id : String → ℕ) (a b : DocRep) : ℚ :=
  let A := normalizeDoc tok2id a
  let B := normalizeDoc tok2id b
  if (A ∪ B).card = 0 then 0
  else 1 - ((A ∩ B).card : ℚ) / ((A ∪ B).card : ℚ)

/-- The fixed toy corpus of the tutorial script (`texts`, lines 35–47). -/
def texts : List (List String) :=
  [["bank", "river", "shore", "water"],
   ["river", "water", "flow", "fast", "tree"],
   ["bank", "water", "fall", "flow"],
   ["bank", "bank", "water", "rain", "river"],
   ["river", "water", "mud", "tree"],
   ["money", "transaction", "bank", "finance"],
   ["bank", "borrow", "money"],
   ["bank", "finance"],
   ["finance", "money", "sell", "bank"],
   ["borrow", "sell"],
   ["bank", "loan", "sell"]]

/-- The index pairs visited by the graph-construction loop
(`itertools.combinations(range(len(texts)), 2)`, line 281). -/
def docPairs : List (ℕ × ℕ) :=
  (List.range texts.length).flatMap (fun i =>
    ((List.range texts.length).filter (fun j => decide (i < j))).map (fun j => (i, j)))

/-- The weighted edge list built by the loop at lines 281–284:
`G.add_edge(i1, i2, weight=1/distance)` with
`distance = jaccard(texts[i1], texts[i2])`. -/
def graphEdges (tok2id : String → ℕ) : List (ℕ × ℕ × ℚ) :=
  docPairs.map (fun pr =>
    (pr.1, pr.2, 1 / jaccard tok2id (.tokenList (texts.getD pr.1 []))
                             (.tokenList (texts.getD pr.2 []))))

/-- Python's `str.split(sep)` for a single-character separator, on the
character list: split at every occurrence of `sep`, keeping empty parts
(`"a++b"` gives `["a", "", "b"]`, `""` gives `[""]`), exactly as
`topic.split('+')` and `word.split('*')` behave. -/
def splitChar (sep : Char) : List Char → List (List Char)
  | [] => [[]]
  | c :: cs =>
    match splitChar sep cs with
    | [] => [[]]
    | g :: gs => if c = sep then [] :: g :: gs else (c :: g) :: gs

/-- Python's `str.split(sep)` on strings. -/
def pySplit (sep : Char) (s : String) : List String :=
  (splitChar sep s.data).map String.mk

/-- Strip spaces and double-quote characters, as
`word.replace(" ", "").replace('"', '')` does at line 173 (replacing a
single-character substring by the empty string removes every occurrence of
that character). -/
def cleanWord (w : String) : String :=
  String.mk (w.data.filter (fun c => !(c == ' ' || c == '\x22')))

/-- One iteration of the loop body of `parse_topic_string` (lines 169–176):
split a term on `*` into probability and word (failing unless the split has
exactly two parts, as Python tuple unpacking does), clean the word, look it
up in the vocabulary, and parse the probability.  The vocabulary
`model.id2word.token2id` and Python's `float` are external collaborators,
passed in as `token2id` and `pfloat`. -/
def termParse (token2id : String → Option ℕ) (pfloat : String → Option ℝ)
    (t : String) : Option (ℕ × ℝ) :=
  match pySplit '*' t with
  | [prob, w] =>
    match token2id (cleanWord w), pfloat prob with
    | some i, some r => some (i, r)
    | _, _ => none
  | _ => none

/-- The loop of `parse_topic_string` over the list of terms: each term is
parsed in order and appended; a failing term aborts the whole call (Python
raises). -/
def parseTerms (token2id : String → Option ℕ) (pfloat : String → Option ℝ) :
    List String → Option (List (ℕ × ℝ))
  | [] => some []
  | t :: ts =>
    match termParse token2id pfloat t, parseTerms token2id pfloat ts with
    | some pr, some l => some (pr :: l)
    | _, _ => none

/-- Embedding of `parse_topic_string` (lines 165–177): split the topic string on `+` and
parse every term. -/
def parse_topic_string (token2id : String → Option ℕ) (pfloat : String → Option ℝ)
    (topic : String) : Option (List (ℕ × ℝ)) :=
  parseTerms token2id pfloat (pySplit '+' topic)

/-! ### Helper lemmas about the Jaccard normalization -/

lemma mem_normalizeDoc_tokenList (f : String → ℕ) (ts : List String) (i : ℕ) :
    i ∈ normalizeDoc f (.tokenList ts) ↔ ∃ t ∈ ts, f t = i := by
  simp [normalizeDoc]

lemma mem_normalizeDoc_bag (f : String → ℕ) (bs : List (ℕ × ℕ)) (i : ℕ) :
    i ∈ normalizeDoc f (.bag bs) ↔ ∃ c, (i, c) ∈ bs ∧ 0 < c := by
  simp only [normalizeDoc, List.mem_toFinset, List.mem_map, List.mem_filter,
    decide_eq_true_eq]
  constructor
  · rintro ⟨⟨j, c⟩, ⟨hmem, hc⟩, rfl⟩
    exact ⟨c, hmem, hc⟩
  · rintro ⟨c, hmem, hc⟩
    exact ⟨(i, c), ⟨hmem, hc⟩, rfl⟩

lemma jaccard_eq_formula (f : String → ℕ) (a b : DocRep)
    (h : (normalizeDoc f a ∪ normalizeDoc f b).Nonempty) :
    jaccard f a b = 1 - ((normalizeDoc f a ∩ normalizeDoc f b).card : ℚ) /
      ((normalizeDoc f a ∪ normalizeDoc f b).card : ℚ) := by
  have hcard : (normalizeDoc f a ∪ normalizeDoc f b).card ≠ 0 :=
    Finset.card_ne_zero_of_mem h.choose_spec
  simp [jaccard, hcard]

lemma jaccard_of_norm_empty (f : String → ℕ) (a b : DocRep)
    (h : normalizeDoc f a ∪ normalizeDoc f b = ∅) :
    jaccard f a b = 0 := by
  simp [jaccard, h]

lemma jaccard_self_eq_zero (f : String → ℕ) (a : DocRep) :
    jaccard f a a = 0 := by
  unfold jaccard
  rcases Nat.eq_zero_or_pos (normalizeDoc f a ∪ normalizeDoc f a).card with h | h
  · have : normalizeDoc f a ∪ normalizeDoc f a = ∅ := Finset.card_eq_zero.mp h
    simp [this, Finset.union_eq_empty.mp this]
  · have hne : ((normalizeDoc f a ∪ normalizeDoc f a).card : ℚ) ≠ 0 := by
      exact_mod_cast Nat.pos_iff_ne_zero.mp h
    simp only [Finset.union_self, Finset.inter_self] at *
    field_simp

lemma jaccard_congr_right (f : String → ℕ) (a b c : DocRep)
    (h : normalizeDoc f b = normalizeDoc f c) :
    jaccard f a b = jaccard f a c := by
  simp [jaccard, h]

lemma jaccard_pos_of_ne (f : String → ℕ) (a b : DocRep)
    (h : normalizeDoc f a ≠ normalizeDoc f b) :
    0 < jaccard f a b := by
  set A := normalizeDoc f a with hA
  set B := normalizeDoc f b with hB
  have hss : A ∩ B ⊂ A ∪ B := by
    refine ⟨Finset.inter_subset_union, fun hsub => h ?_⟩
    have hAB : A = B := by
      apply Finset.Subset.antisymm
      · intro x hx
        have hxu : x ∈ A ∪ B := Finset.mem_union_left _ hx
        exact (Finset.mem_inter.mp (hsub hxu)).2
      · intro x hx
        have hxu : x ∈ A ∪ B := Finset.mem_union_right _ hx
        exact (Finset.mem_inter.mp (hsub hxu)).1
    exact hAB
  have hlt : (A ∩ B).card < (A ∪ B).card := Finset.card_lt_card hss
  have hpos : 0 < (A ∪ B).card := lt_of_le_of_lt (Nat.zero_le _) hlt
  have hposq : (0 : ℚ) < ((A ∪ B).card : ℚ) := by exact_mod_cast hpos
  have hltq : ((A ∩ B).card : ℚ) < ((A ∪ B).card : ℚ) := by exact_mod_cast hlt
  have : ((A ∩ B).card : ℚ) / ((A ∪ B).card : ℚ) < 1 := (div_lt_one hposq).mpr hltq
  simp only [jaccard, ← hA, ← hB, Nat.pos_iff_ne_zero.mp hpos, if_false]
  linarith

lemma map_toFinset_ne_of_injOn (f : String → ℕ) (L : List String)
    (hf : ∀ t1 ∈ L, ∀ t2 ∈ L, f t1 = f t2 → t1 = t2)
    (l1 l2 : List String) (h1 : ∀ t ∈ l1, t ∈ L) (h2 : ∀ t ∈ l2, t ∈ L)
    (hne : l1.toFinset ≠ l2.toFinset) :
    (l1.map f).toFinset ≠ (l2.map f).toFinset := by
  intro heq
  apply hne
  ext t
  simp only [List.mem_toFinset]
  have himg : ∀ x, (∃ u ∈ l1, f u = x) ↔ ∃ u ∈ l2, f u = x := by
    intro x
    have := Finset.ext_iff.mp heq x
    simpa [List.mem_toFinset, List.mem_map] using this
  constructor
  · intro ht
    obtain ⟨u, hu, hfu⟩ := (himg (f t)).mp ⟨t, ht, rfl⟩
    exact hf u (h2 u hu) t (h1 t ht) hfu ▸ hu
  · intro ht
    obtain ⟨u, hu, hfu⟩ := (himg (f t)).mpr ⟨t, ht, rfl⟩
    exact hf u (h1 u hu) t (h2 t ht) hfu ▸ hu

/-! ### Claim theorems about the Jaccard distance -/

/-- Claim C2: For every pair of inputs, `jaccard` returns
`1 - |A ∩ B| / |A ∪ B|` where `A` and `B` are the normalized sets of the two
inputs: for a bag-of-words input, the set of indices with positive count
(ignoring count magnitude); for a token-list input, the set of distinct
tokens.  The union is assumed nonempty, since `0 / 0` is otherwise
undefined (the empty-vs-empty convention is claim C5). -/
theorem jaccard_matches_formula (f : String → ℕ) (a b : DocRep)
    (h : (normalizeDoc f a ∪ normalizeDoc f b).Nonempty) :
    jaccard f a b = 1 - ((normalizeDoc f a ∩ normalizeDoc f b).card : ℚ) /
      ((normalizeDoc f a ∪ normalizeDoc f b).card : ℚ) ∧
    (∀ ts i, i ∈ normalizeDoc f (.tokenList ts) ↔ ∃ t ∈ ts, f t = i) ∧
    (∀ bs i, i ∈ normalizeDoc f (.bag bs) ↔ ∃ c, (i, c) ∈ bs ∧ 0 < c) := by
  exact ⟨jaccard_eq_formula f a b h, mem_normalizeDoc_tokenList f,
    mem_normalizeDoc_bag f⟩

/-- Vocabulary map used by the concrete witnesses: the position of a token
in a fixed distinct word list. -/
def witnessVocab : List String :=
  ["bank", "river", "shore", "water", "flow", "fast", "tree", "fall", "rain",
   "mud", "money", "transaction", "finance", "borrow", "sell", "loan",
   "word", "a", "b"]

/-- Concrete vocabulary mapping for witnesses. -/
def wid (s : String) : ℕ := witnessVocab.indexOf s

/-- Witness for C2 at concrete inputs. -/
theorem jaccard_matches_formula_witness :
    (normalizeDoc wid (.tokenList ["bank", "river"]) ∪
      normalizeDoc wid (.tokenList ["bank", "water"])).Nonempty ∧
    (jaccard wid (.tokenList ["bank", "river"]) (.tokenList ["bank", "water"]) =
      1 - ((normalizeDoc wid (.tokenList ["bank", "river"]) ∩
        normalizeDoc wid (.tokenList ["bank", "water"])).card : ℚ) /
        ((normalizeDoc wid (.tokenList ["bank", "river"]) ∪
          normalizeDoc wid (.tokenList ["bank", "water"])).card : ℚ) ∧
    (∀ ts i, i ∈ normalizeDoc wid (.tokenList ts) ↔ ∃ t ∈ ts, wid t = i) ∧
    (∀ bs i, i ∈ normalizeDoc wid (.bag bs) ↔ ∃ c, (i, c) ∈ bs ∧ 0 < c)) :=
  ⟨by decide, jaccard_matches_formula wid _ _ (by decide)⟩

/-- Claim C3: `jaccard(A, A) = 0` for every document in either representation;
in particular `jaccard(['word'], ['word']) = 0`. -/
theorem jaccard_self_zero (f : String → ℕ) (a : DocRep) :
    jaccard f a a = 0 ∧
    jaccard f (.tokenList ["word"]) (.tokenList ["word"]) = 0 :=
  ⟨jaccard_self_eq_zero f a, jaccard_self_eq_zero f (.tokenList ["word"])⟩

/-- Claim C4: Mixed-representation equivalence: comparing a token list against
a bag-of-words whose positive-count index set corresponds (under the
vocabulary mapping) to the token list's distinct tokens gives the same value
as the single-representation comparison, namely 0. -/
theorem jaccard_mixed_equiv (f : String → ℕ) (ts : List String)
    (bs : List (ℕ × ℕ))
    (h : normalizeDoc f (.bag bs) = normalizeDoc f (.tokenList ts)) :
    jaccard f (.tokenList ts) (.bag bs) =
      jaccard f (.tokenList ts) (.tokenList ts) ∧
    jaccard f (.tokenList ts) (.bag bs) = 0 := by
  have heq := jaccard_congr_right f (.tokenList ts) (.bag bs) (.tokenList ts) h
  exact ⟨heq, heq.trans (jaccard_self_eq_zero f (.tokenList ts))⟩

/-- Witness for C4: `['a','b']` against the bag `{idx(a): 1, idx(b): 1}`. -/
theorem jaccard_mixed_equiv_witness :
    normalizeDoc wid (.bag [(17, 1), (18, 1)]) =
      normalizeDoc wid (.tokenList ["a", "b"]) ∧
    (jaccard wid (.tokenList ["a", "b"]) (.bag [(17, 1), (18, 1)]) =
      jaccard wid (.tokenList ["a", "b"]) (.tokenList ["a", "b"]) ∧
    jaccard wid (.tokenList ["a", "b"]) (.bag [(17, 1), (18, 1)]) = 0) :=
  ⟨by decide, jaccard_mixed_equiv wid _ _ (by decide)⟩

/-- Claim C5: When both inputs normalize to empty sets, `jaccard` returns 0
(the documented identical-empty convention) instead of failing; the
embedding is a total function, so no error is possible. -/
theorem jaccard_empty_empty (f : String → ℕ) (a b : DocRep)
    (h : normalizeDoc f a ∪ normalizeDoc f b = ∅) :
    jaccard f a b = 0 := by
  simp [jaccard, h]

/-- Witness for C5: an empty token list against a bag whose only count is
zero; both normalize to the empty set. -/
theorem jaccard_empty_empty_witness :
    normalizeDoc wid (.tokenList []) ∪ normalizeDoc wid (.bag [(5, 0)]) = ∅ ∧
    jaccard wid (.tokenList []) (.bag [(5, 0)]) = 0 :=
  ⟨by decide, jaccard_empty_empty wid _ _ (by decide)⟩

/-- Claim C9: In the graph-construction loop, for every index pair visited,
the Jaccard distance of the two (distinct) documents of the fixed corpus
`texts` is strictly positive — no two documents have identical token sets —
so the edge weight `1/distance` never divides by zero, and every computed
edge weight is strictly positive.  The vocabulary mapping is assumed
injective on the corpus tokens (as the script's `Dictionary` is). -/
theorem graph_loop_div_safe (f : String → ℕ)
    (hf : ∀ t1 ∈ texts.flatten, ∀ t2 ∈ texts.flatten, f t1 = f t2 → t1 = t2) :
    (∀ pr ∈ docPairs, 0 < jaccard f (.tokenList (texts.getD pr.1 []))
      (.tokenList (texts.getD pr.2 []))) ∧
    (∀ e ∈ graphEdges f, 0 < e.2.2) := by
  have hdist : ∀ pr ∈ docPairs,
      (texts.getD pr.1 []).toFinset ≠ (texts.getD pr.2 []).toFinset := by decide
  have hmem : ∀ pr ∈ docPairs,
      texts.getD pr.1 [] ∈ texts ∧ texts.getD pr.2 [] ∈ texts := by decide
  have main : ∀ pr ∈ docPairs, 0 < jaccard f
      (.tokenList (texts.getD pr.1 [])) (.tokenList (texts.getD pr.2 [])) := by
    intro pr hpr
    apply jaccard_pos_of_ne
    show ((texts.getD pr.1 []).map f).toFinset ≠ ((texts.getD pr.2 []).map f).toFinset
    apply map_toFinset_ne_of_injOn f texts.flatten hf
    · intro t ht
      exact List.mem_flatten.mpr ⟨_, (hmem pr hpr).1, ht⟩
    · intro t ht
      exact List.mem_flatten.mpr ⟨_, (hmem pr hpr).2, ht⟩
    · exact hdist pr hpr
  refine ⟨main, ?_⟩
  intro e he
  simp only [graphEdges, List.mem_map] at he
  obtain ⟨pr, hpr, rfl⟩ := he
  exact one_div_pos.mpr (main pr hpr)

/-- Witness for C9: the concrete vocabulary map `wid` is injective on the
corpus tokens, and the first visited pair gets a positive distance. -/
theorem graph_loop_div_safe_witness :
    (∀ t1 ∈ texts.flatten, ∀ t2 ∈ texts.flatten, wid t1 = wid t2 → t1 = t2) ∧
    ((∀ pr ∈ docPairs, 0 < jaccard wid (.tokenList (texts.getD pr.1 []))
      (.tokenList (texts.getD pr.2 []))) ∧
    (∀ e ∈ graphEdges wid, 0 < e.2.2)) :=
  ⟨by decide, graph_loop_div_safe wid (by decide)⟩

/-! ### Helper lemmas about the Hellinger distance -/

lemma dlookup_eq_zero_of_not_mem (p : SparseDistribution) (i : ℕ)
    (h : i ∉ indexSet p) : dlookup p i = 0 := by
  have hfind : p.find? (fun e => e.1 == i) = none := by
    rw [List.find?_eq_none]
    intro e he hbeq
    apply h
    simp only [indexSet, List.mem_toFinset, List.mem_map]
    exact ⟨e, he, by simpa using hbeq⟩
  simp [dlookup, hfind]

lemma dlookup_nonneg (p : SparseDistribution) (hp : ∀ e ∈ p, 0 ≤ e.2) (i : ℕ) :
    0 ≤ dlookup p i := by
  unfold dlookup
  cases hfind : p.find? (fun e => e.1 == i) with
  | none => exact le_refl 0
  | some e => exact hp e (List.mem_of_find?_eq_some hfind)

lemma hellinger_eq_on (p q : SparseDistribution) (S : Finset ℕ)
    (hS : indexSet p ∪ indexSet q ⊆ S) :
    hellinger p q = Real.sqrt (0.5 * ∑ i in S,
      (Real.sqrt (dlookup p i) - Real.sqrt (dlookup q i)) ^ 2) := by
  unfold hellinger
  congr 2
  apply Finset.sum_subset hS
  intro i _ hi
  have hip : i ∉ indexSet p := fun hmem => hi (Finset.mem_union_left _ hmem)
  have hiq : i ∉ indexSet q := fun hmem => hi (Finset.mem_union_right _ hmem)
  rw [dlookup_eq_zero_of_not_mem p i hip, dlookup_eq_zero_of_not_mem q i hiq]
  simp

lemma sqrt_sum_sq_triangle (S : Finset ℕ) (a b c : ℕ → ℝ) :
    Real.sqrt (∑ i in S, (a i - c i) ^ 2) ≤
      Real.sqrt (∑ i in S, (a i - b i) ^ 2) +
      Real.sqrt (∑ i in S, (b i - c i) ^ 2) := by
  have key : ∀ u v : ℕ → ℝ, Real.sqrt (∑ i in S, (u i - v i) ^ 2) =
      dist (α := EuclideanSpace ℝ ↥S) (fun i => u ↑i) (fun i => v ↑i) := by
    intro u v
    rw [EuclideanSpace.dist_eq]
    congr 1
    rw [← Finset.sum_coe_sort S (fun i => (u i - v i) ^ 2)]
    exact Finset.sum_congr rfl fun i _ => by rw [Real.dist_eq, sq_abs]
  rw [key a c, key a b, key b c]
  exact dist_triangle _ _ _

/-- A valid sparse probability distribution: non-negative masses whose total
over the support is at most 1. -/
def IsDist (p : SparseDistribution) : Prop :=
  (∀ e ∈ p, 0 ≤ e.2) ∧ ∑ i in indexSet p, dlookup p i ≤ 1

lemma sum_dlookup_over_superset (p : SparseDistribution) (S : Finset ℕ)
    (hS : indexSet p ⊆ S) :
    ∑ i in S, dlookup p i = ∑ i in indexSet p, dlookup p i :=
  (Finset.sum_subset hS fun i _ hi => dlookup_eq_zero_of_not_mem p i hi).symm

lemma hellinger_nonneg (p q : SparseDistribution) : 0 ≤ hellinger p q :=
  Real.sqrt_nonneg _

lemma hellinger_le_one (p q : SparseDistribution)
    (hp : IsDist p) (hq : IsDist q) : hellinger p q ≤ 1 := by
  set U := indexSet p ∪ indexSet q with hU
  have hterm : ∀ i ∈ U, (Real.sqrt (dlookup p i) - Real.sqrt (dlookup q i)) ^ 2 ≤
      dlookup p i + dlookup q i := by
    intro i _
    have hp0 : 0 ≤ dlookup p i := dlookup_nonneg p hp.1 i
    have hq0 : 0 ≤ dlookup q i := dlookup_nonneg q hq.1 i
    have h1 : Real.sqrt (dlookup p i) ^ 2 = dlookup p i := Real.sq_sqrt hp0
    have h2 : Real.sqrt (dlookup q i) ^ 2 = dlookup q i := Real.sq_sqrt hq0
    nlinarith [Real.sqrt_nonneg (dlookup p i), Real.sqrt_nonneg (dlookup q i),
      mul_nonneg (Real.sqrt_nonneg (dlookup p i)) (Real.sqrt_nonneg (dlookup q i))]
  have hsum : ∑ i in U, (Real.sqrt (dlookup p i) - Real.sqrt (dlookup q i)) ^ 2 ≤
      ∑ i in U, (dlookup p i + dlookup q i) := Finset.sum_le_sum hterm
  have hsplit : ∑ i in U, (dlookup p i + dlookup q i) =
      ∑ i in U, dlookup p i + ∑ i in U, dlookup q i := Finset.sum_add_distrib
  have hup : ∑ i in U, dlookup p i ≤ 1 := by
    rw [sum_dlookup_over_superset p U Finset.subset_union_left]
    exact hp.2
  have huq : ∑ i in U, dlookup q i ≤ 1 := by
    rw [sum_dlookup_over_superset q U Finset.subset_union_right]
    exact hq.2
  have hS2 : ∑ i in U, (Real.sqrt (dlookup p i) - Real.sqrt (dlookup q i)) ^ 2 ≤ 2 := by
    rw [hsplit] at hsum
    linarith
  calc hellinger p q
      = Real.sqrt (0.5 * ∑ i in U,
          (Real.sqrt (dlookup p i) - Real.sqrt (dlookup q i)) ^ 2) := rfl
    _ ≤ Real.sqrt 1 := Real.sqrt_le_sqrt (by linarith)
    _ = 1 := Real.sqrt_one

/-! ### Claim theorems about the Hellinger distance -/

/-- Claim C1: `hellinger p q` equals
`sqrt(0.5 * Σ_{i ∈ I} (sqrt pᵢ - sqrt qᵢ)²)` where the sum ranges over any
index set `I` covering the union of the two supports, an index absent from a
distribution contributing probability 0 there. -/
theorem hellinger_matches_formula (p q : SparseDistribution) (S : Finset ℕ)
    (hS : indexSet p ∪ indexSet q ⊆ S) :
    hellinger p q = Real.sqrt (0.5 * ∑ i in S,
      (Real.sqrt (dlookup p i) - Real.sqrt (dlookup q i)) ^ 2) ∧
    (∀ i, i ∉ indexSet p → dlookup p i = 0) ∧
    (∀ i, i ∉ indexSet q → dlookup q i = 0) :=
  ⟨hellinger_eq_on p q S hS, dlookup_eq_zero_of_not_mem p,
    dlookup_eq_zero_of_not_mem q⟩

/-- Witness for C1 at concrete distributions and a strict superset of the
union of their supports. -/
theorem hellinger_matches_formula_witness :
    indexSet [(0, (1 : ℝ))] ∪ indexSet [(1, (1 : ℝ))] ⊆ ({0, 1, 2} : Finset ℕ) ∧
    (hellinger [(0, (1 : ℝ))] [(1, (1 : ℝ))] = Real.sqrt (0.5 * ∑ i in ({0, 1, 2} : Finset ℕ),
      (Real.sqrt (dlookup [(0, (1 : ℝ))] i) - Real.sqrt (dlookup [(1, (1 : ℝ))] i)) ^ 2) ∧
    (∀ i, i ∉ indexSet [(0, (1 : ℝ))] → dlookup [(0, (1 : ℝ))] i = 0) ∧
    (∀ i, i ∉ indexSet [(1, (1 : ℝ))] → dlookup [(1, (1 : ℝ))] i = 0)) :=
  ⟨by decide, hellinger_matches_formula _ _ _ (by decide)⟩

/-- Claim C6: The Hellinger distance is symmetric. -/
theorem hellinger_symmetric (p q : SparseDistribution) :
    hellinger p q = hellinger q p := by
  unfold hellinger
  rw [Finset.union_comm]
  congr 2
  exact Finset.sum_congr rfl fun i _ => by ring

/-- Claim C7: For valid probability distributions (non-negative masses with
total mass at most 1), the Hellinger distance lies in `[0, 1]`, and the
disjoint-support pair `[(0, 1.0)]`, `[(1, 1.0)]` attains exactly 1. -/
theorem hellinger_bounded (p q : SparseDistribution)
    (hp : IsDist p) (hq : IsDist q) :
    0 ≤ hellinger p q ∧ hellinger p q ≤ 1 ∧
    hellinger [(0, (1 : ℝ))] [(1, (1 : ℝ))] = 1 := by
  refine ⟨hellinger_nonneg p q, hellinger_le_one p q hp hq, ?_⟩
  have hU : indexSet [(0, (1 : ℝ))] ∪ indexSet [(1, (1 : ℝ))] =
      ({0, 1} : Finset ℕ) := by decide
  have e1 : dlookup [(0, (1 : ℝ))] 0 = 1 := rfl
  have e2 : dlookup [(0, (1 : ℝ))] 1 = 0 := rfl
  have e3 : dlookup [(1, (1 : ℝ))] 0 = 0 := rfl
  have e4 : dlookup [(1, (1 : ℝ))] 1 = 1 := rfl
  unfold hellinger
  rw [hU, Finset.sum_insert (by decide), Finset.sum_singleton, e1, e2, e3, e4]
  rw [Real.sqrt_zero, Real.sqrt_one]
  rw [show (0.5 : ℝ) * ((1 - 0) ^ 2 + (0 - 1) ^ 2) = 1 by norm_num, Real.sqrt_one]

/-- Witness for C7: the two disjoint-support point masses are valid
distributions, and the bounds hold for them. -/
theorem hellinger_bounded_witness :
    IsDist [(0, (1 : ℝ))] ∧ IsDist [(1, (1 : ℝ))] ∧
    (0 ≤ hellinger [(0, (1 : ℝ))] [(1, (1 : ℝ))] ∧
     hellinger [(0, (1 : ℝ))] [(1, (1 : ℝ))] ≤ 1 ∧
     hellinger [(0, (1 : ℝ))] [(1, (1 : ℝ))] = 1) := by
  have h1 : IsDist [(0, (1 : ℝ))] := by
    constructor
    · intro e he
      simp only [List.mem_singleton] at he
      subst he
      norm_num
    · rw [show indexSet [(0, (1 : ℝ))] = {0} by decide, Finset.sum_singleton,
        show dlookup [(0, (1 : ℝ))] 0 = 1 from rfl]
  have h2 : IsDist [(1, (1 : ℝ))] := by
    constructor
    · intro e he
      simp only [List.mem_singleton] at he
      subst he
      norm_num
    · rw [show indexSet [(1, (1 : ℝ))] = {1} by decide, Finset.sum_singleton,
        show dlookup [(1, (1 : ℝ))] 1 = 1 from rfl]
  exact ⟨h1, h2, hellinger_bounded _ _ h1 h2⟩

/-- Claim C8: The Hellinger distance satisfies the triangle inequality (here
proved for arbitrary sparse inputs, hence in particular for valid
probability distributions). -/
theorem hellinger_triangle_ineq (p q r : SparseDistribution) :
    hellinger p r ≤ hellinger p q + hellinger q r := by
  set S := indexSet p ∪ indexSet q ∪ indexSet r with hSdef
  have hsub1 : indexSet p ∪ indexSet r ⊆ S := by
    intro x hx
    simp only [hSdef, Finset.mem_union] at *
    tauto
  have hsub2 : indexSet p ∪ indexSet q ⊆ S := by
    intro x hx
    simp only [hSdef, Finset.mem_union] at *
    tauto
  have hsub3 : indexSet q ∪ indexSet r ⊆ S := by
    intro x hx
    simp only [hSdef, Finset.mem_union] at *
    tauto
  rw [hellinger_eq_on p r S hsub1, hellinger_eq_on p q S hsub2,
    hellinger_eq_on q r S hsub3]
  rw [Real.sqrt_mul (by norm_num : (0 : ℝ) ≤ 0.5),
    Real.sqrt_mul (by norm_num : (0 : ℝ) ≤ 0.5),
    Real.sqrt_mul (by norm_num : (0 : ℝ) ≤ 0.5)]
  have htri := sqrt_sum_sq_triangle S (fun i => Real.sqrt (dlookup p i))
    (fun i => Real.sqrt (dlookup q i)) (fun i => Real.sqrt (dlookup r i))
  have h05 : 0 ≤ Real.sqrt 0.5 := Real.sqrt_nonneg _
  calc Real.sqrt 0.5 * Real.sqrt (∑ i in S,
        (Real.sqrt (dlookup p i) - Real.sqrt (dlookup r i)) ^ 2)
      ≤ Real.sqrt 0.5 * (Real.sqrt (∑ i in S,
          (Real.sqrt (dlookup p i) - Real.sqrt (dlookup q i)) ^ 2) +
        Real.sqrt (∑ i in S,
          (Real.sqrt (dlookup q i) - Real.sqrt (dlookup r i)) ^ 2)) :=
        mul_le_mul_of_nonneg_left htri h05
    _ = Real.sqrt 0.5 * Real.sqrt (∑ i in S,
          (Real.sqrt (dlookup p i) - Real.sqrt (dlookup q i)) ^ 2) +
        Real.sqrt 0.5 * Real.sqrt (∑ i in S,
          (Real.sqrt (dlookup q i) - Real.sqrt (dlookup r i)) ^ 2) := by ring

/-! ### Claim theorem about `parse_topic_string` -/

lemma termParse_eq_some (token2id : String → Option ℕ)
    (pfloat : String → Option ℝ) (t p w : String) (i : ℕ) (r : ℝ)
    (hsplit : pySplit '*' t = [p, w])
    (hid : token2id (cleanWord w) = some i) (hpf : pfloat p = some r) :
    termParse token2id pfloat t = some (i, r) := by
  unfold termParse
  rw [hsplit]
  simp [hid, hpf]

lemma parseTerms_spec (token2id : String → Option ℕ)
    (pfloat : String → Option ℝ) (ts : List String)
    (h : ∀ t ∈ ts, ∃ pr, termParse token2id pfloat t = some pr) :
    ∃ l, parseTerms token2id pfloat ts = some l ∧ l.length = ts.length ∧
      ∀ (k : ℕ) t, ts[k]? = some t → ∀ pr, termParse token2id pfloat t = some pr →
        l[k]? = some pr := by
  induction ts with
  | nil =>
    refine ⟨[], rfl, rfl, ?_⟩
    intro k t hk
    simp at hk
  | cons t ts ih =>
    obtain ⟨pr, hpr⟩ := h t (List.mem_cons_self t ts)
    obtain ⟨l, hl, hlen, hidx⟩ := ih (fun u hu => h u (List.mem_cons_of_mem t hu))
    refine ⟨pr :: l, ?_, by simp [hlen], ?_⟩
    · unfold parseTerms
      rw [hpr, hl]
    · intro k u hk pr₂ hpr₂
      match k with
      | 0 =>
        simp only [List.getElem?_cons_zero, Option.some.injEq] at hk
        subst hk
        rw [hpr] at hpr₂
        simp only [List.getElem?_cons_zero, Option.some.injEq]
        exact (Option.some.injEq _ _ ▸ hpr₂.symm) ▸ rfl
      | k + 1 =>
        simp only [List.getElem?_cons_succ] at hk ⊢
        exact hidx k u hk pr₂ hpr₂

/-- Claim C10: For every topic string made of `+`-separated terms of the form
`prob*word` — where, after removing spaces and double quotes, each word is a
key of the vocabulary and each probability parses as a number —
`parse_topic_string` succeeds and returns exactly one
`(token2id[word], float(prob))` pair per term, in the order the terms appear
in the string. -/
theorem parse_topic_string_spec (token2id : String → Option ℕ)
    (pfloat : String → Option ℝ) (topic : String)
    (h : ∀ t ∈ pySplit '+' topic, ∃ p w i r, pySplit '*' t = [p, w] ∧
      token2id (cleanWord w) = some i ∧ pfloat p = some r) :
    ∃ l, parse_topic_string token2id pfloat topic = some l ∧
      l.length = (pySplit '+' topic).length ∧
      ∀ (k : ℕ) t, (pySplit '+' topic)[k]? = some t →
        ∀ p w i r, pySplit '*' t = [p, w] → token2id (cleanWord w) = some i →
          pfloat p = some r → l[k]? = some (i, r) := by
  have hterm : ∀ t ∈ pySplit '+' topic,
      ∃ pr, termParse token2id pfloat t = some pr := by
    intro t ht
    obtain ⟨p, w, i, r, hsplit, hid, hpf⟩ := h t ht
    exact ⟨(i, r), termParse_eq_some token2id pfloat t p w i r hsplit hid hpf⟩
  obtain ⟨l, hl, hlen, hidx⟩ := parseTerms_spec token2id pfloat _ hterm
  refine ⟨l, hl, hlen, ?_⟩
  intro k t hk p w i r hsplit hid hpf
  exact hidx k t hk (i, r) (termParse_eq_some token2id pfloat t p w i r hsplit hid hpf)

/-- Concrete topic string for the C10 witness, in the format produced by
`model.show_topics()`. -/
def topicW : String := "0.1*\x22bank\x22 + 0.2*water"

/-- Concrete vocabulary for the C10 witness. -/
def tok2idW : String → Option ℕ := fun s =>
  if s = "bank" then some 0 else if s = "water" then some 3 else none

/-- Concrete float parser for the C10 witness. -/
noncomputable def pfloatW : String → Option ℝ := fun s =>
  if s = "0.1" then some (1 / 10) else if s = " 0.2" then some (1 / 5) else none

/-- Witness for C10 at a concrete two-term topic string. -/
theorem parse_topic_string_spec_witness :
    (∀ t ∈ pySplit '+' topicW, ∃ p w i r, pySplit '*' t = [p, w] ∧
      tok2idW (cleanWord w) = some i ∧ pfloatW p = some r) ∧
    (∃ l, parse_topic_string tok2idW pfloatW topicW = some l ∧
      l.length = (pySplit '+' topicW).length ∧
      ∀ (k : ℕ) t, (pySplit '+' topicW)[k]? = some t →
        ∀ p w i r, pySplit '*' t = [p, w] → tok2idW (cleanWord w) = some i →
          pfloatW p = some r → l[k]? = some (i, r)) := by
  have hyp : ∀ t ∈ pySplit '+' topicW, ∃ p w i r, pySplit '*' t = [p, w] ∧
      tok2idW (cleanWord w) = some i ∧ pfloatW p = some r := by
    intro t ht
    have hsp : pySplit '+' topicW = ["0.1*\x22bank\x22 ", " 0.2*water"] := rfl
    rw [hsp] at ht
    simp only [List.mem_cons, List.not_mem_nil, or_false] at ht
    rcases ht with rfl | rfl
    · exact ⟨"0.1", "\x22bank\x22 ", 0, 1 / 10, rfl, rfl, rfl⟩
    · exact ⟨" 0.2", "water", 3, 1 / 5, rfl, rfl, rfl⟩
  exact ⟨hyp, parse_topic_string_spec tok2idW pfloatW topicW hyp⟩

end DistanceMetrics
